import Mathlib

/-!
Shallow embedding of `minesweeper.py` (classes `Minesweeper`, `Sentence`,
`MinesweeperAI`) and proofs about the inference engine.

Conventions of the embedding:
* a Python cell `(i, j)` is a `Cell := ℕ × ℕ`;
* Python `set` becomes `Finset Cell`; Python `list` becomes `List`;
* `Sentence.count` is a Python `int`, so it is embedded as `ℤ`
  (it can be driven negative by `mark_mine` on a zero-count sentence);
* in-place mutation becomes explicit state passing on `AIState`;
* iteration over a Python `set` has unspecified order, but every such loop
  in the source performs an order-independent update (inserting cells into a
  set, erasing cells from sets, decrementing a count once per distinct
  erased cell), so those loops are embedded as folds over `Finset.toList`
  together with closed-form lemmas.
-/

namespace MinesweeperRepo

abbrev Cell : Type := ℕ × ℕ

/-- Embedding of class `Sentence`: a set of board cells together with a count
of how many of those cells are mines (`self.cells`, `self.count`).
Structural equality of the embedding matches `Sentence.__eq__`
(equal cell sets and equal counts). -/
@[ext] structure Sentence where
  cells : Finset Cell
  count : ℤ
deriving DecidableEq

/-- Embedding of `Sentence.known_mines`:
`self.cells if len(self.cells) == self.count else set()`. -/
def Sentence.known_mines (s : Sentence) : Finset Cell :=
  if (s.cells.card : ℤ) = s.count then s.cells else ∅

/-- Embedding of `Sentence.known_safes`:
`self.cells if self.count == 0 else set()`. -/
def Sentence.known_safes (s : Sentence) : Finset Cell :=
  if s.count = 0 then s.cells else ∅

/-- Embedding of `Sentence.mark_mine`: if the cell is in `cells`, remove it
and decrement `count`.  (The `bool` return value of the Python method is
ignored by every caller in the source, so it is not modelled.) -/
def Sentence.mark_mine (s : Sentence) (c : Cell) : Sentence :=
  if c ∈ s.cells then ⟨s.cells.erase c, s.count - 1⟩ else s

/-- Embedding of `Sentence.mark_safe`: if the cell is in `cells`, remove it
(count unchanged). -/
def Sentence.mark_safe (s : Sentence) (c : Cell) : Sentence :=
  if c ∈ s.cells then ⟨s.cells.erase c, s.count⟩ else s

/-- Embedding of the mutable state of class `MinesweeperAI`. -/
@[ext] structure AIState where
  height : ℕ
  width : ℕ
  moves_made : Finset Cell
  safes : Finset Cell
  mines : Finset Cell
  knowledge : List Sentence
deriving DecidableEq

/-- `MinesweeperAI.__init__(height, width)`. -/
def initAI (height width : ℕ) : AIState :=
  ⟨height, width, ∅, ∅, ∅, []⟩

/-- Embedding of `MinesweeperAI.mark_mine`: add the cell to `self.mines` and
apply `Sentence.mark_mine` to every sentence in `self.knowledge`. -/
def AIState.mark_mine (st : AIState) (c : Cell) : AIState :=
  { st with mines := insert c st.mines,
            knowledge := st.knowledge.map (fun s => s.mark_mine c) }

/-- Embedding of `MinesweeperAI.mark_safe`: add the cell to `self.safes` and
apply `Sentence.mark_safe` to every sentence in `self.knowledge`. -/
def AIState.mark_safe (st : AIState) (c : Cell) : AIState :=
  { st with safes := insert c st.safes,
            knowledge := st.knowledge.map (fun s => s.mark_safe c) }

/-- The collection phase of `MinesweeperAI.mark_cells` for safes: the cells
appearing in some sentence's `known_safes()` that are not already in
`self.safes` (the Python code gathers them into a duplicate-free list before
doing any marking; only the underlying set matters for the final state). -/
def AIState.collectSafes (st : AIState) : Finset Cell :=
  (st.knowledge.foldr (fun s acc => s.known_safes ∪ acc) ∅) \ st.safes

/-- The collection phase of `MinesweeperAI.mark_cells` for mines. -/
def AIState.collectMines (st : AIState) : Finset Cell :=
  (st.knowledge.foldr (fun s acc => s.known_mines ∪ acc) ∅) \ st.mines

/-- The effect on one sentence of calling `Sentence.mark_safe` once for each
cell of a set `S` (in any order): the cells of `S` are removed, the count is
unchanged.  The fold lemma `foldl_mark_safe` below shows this is the result
of the Python loop for every iteration order. -/
def Sentence.removeSafes (s : Sentence) (S : Finset Cell) : Sentence :=
  ⟨s.cells \ S, s.count⟩

/-- The effect on one sentence of calling `Sentence.mark_mine` once for each
cell of a set `M` (in any order): the cells of `M` are removed and the count
drops by one per removed cell that was present.  The fold lemma
`foldl_mark_mine` below shows this is the result of the Python loop for
every iteration order. -/
def Sentence.removeMines (s : Sentence) (M : Finset Cell) : Sentence :=
  ⟨s.cells \ M, s.count - ((s.cells ∩ M).card : ℤ)⟩

/-- Embedding of `MinesweeperAI.mark_cells`: first collect (from the current
sentences) the newly deducible safe cells and mine cells, then call
`mark_safe` on each collected safe cell and then `mark_mine` on each
collected mine cell.  The Python code iterates the collected cells in list
order; the lemmas `foldl_state_mark_safe` and `foldl_state_mark_mine` below
prove that for every iteration order of the collected cells the marking
loops produce exactly this state. -/
def AIState.mark_cells (st : AIState) : AIState :=
  { st with safes := st.safes ∪ st.collectSafes,
            mines := st.mines ∪ st.collectMines,
            knowledge := st.knowledge.map
              (fun s => (s.removeSafes st.collectSafes).removeMines st.collectMines) }

/-- Embedding of the neighbor enumeration in `MinesweeperAI.add_knowledge`
(lines building the `neighbors` list), in the source's append order.  The
Python comparisons `i < self.height - 1` and `j < self.width - 1` are over
unbounded ints and are rendered as `i + 1 < height`, `j + 1 < width`. -/
def neighborsList (height width : ℕ) (cell : Cell) : List Cell :=
  (if 0 < cell.1 then
      [(cell.1-1, cell.2)]
        ++ (if 0 < cell.2 then [(cell.1-1, cell.2-1)] else [])
        ++ (if cell.2 + 1 < width then [(cell.1-1, cell.2+1)] else [])
    else [])
  ++ (if cell.1 + 1 < height then
      [(cell.1+1, cell.2)]
        ++ (if 0 < cell.2 then [(cell.1+1, cell.2-1)] else [])
        ++ (if cell.2 + 1 < width then [(cell.1+1, cell.2+1)] else [])
    else [])
  ++ (if cell.2 + 1 < width then [(cell.1, cell.2+1)] else [])
  ++ (if 0 < cell.2 then [(cell.1, cell.2-1)] else [])

/-- Embedding of the resolution pass of `MinesweeperAI.add_knowledge`
(the `new_sentences` collection): for each ordered pair of sentences of the
knowledge list with `sentence1 != sentence2` and
`sentence1.cells.issubset(sentence2.cells)`, form the difference sentence and
keep it when its cell set is non-empty, its count is non-negative, and no
structurally equal sentence is in `kn` (the knowledge list as it stands
during collection; the candidates are only appended afterwards).  The
source's nested `if` statements are combined into one conjunction with the
same kept-candidate condition. -/
def resolutionCandidates (kn : List Sentence) : List Sentence :=
  kn.flatMap (fun s1 => kn.filterMap (fun s2 =>
    if s1 ≠ s2 ∧ s1.cells ⊆ s2.cells ∧
        0 < (s2.cells \ s1.cells).card ∧ 0 ≤ s2.count - s1.count ∧
        (⟨s2.cells \ s1.cells, s2.count - s1.count⟩ : Sentence) ∉ kn then
      some ⟨s2.cells \ s1.cells, s2.count - s1.count⟩
    else none))

/-- The equality-based deduplicating append of `MinesweeperAI.add_knowledge`
(`if newSentence not in self.knowledge: self.knowledge.append(newSentence)`):
append the sentence unless a structurally equal one is already present. -/
def dedupAppend (kn : List Sentence) (s : Sentence) : List Sentence :=
  if s ∈ kn then kn else kn ++ [s]

/-- The first part of `MinesweeperAI.add_knowledge`, through the first
`mark_cells()` call: record the move, add the revealed cell to `self.safes`
(the source does `self.safes.add(cell)` directly, not `self.mark_safe`),
build the candidate sentence from the not-known-safe neighbors, normalize it
against known mines (the source's normalization loop iterates over
`self.knowledge`, so it runs zero times when the knowledge list is empty;
otherwise its net effect is one `Sentence.mark_mine` per known mine present
in the candidate, i.e. `Sentence.removeMines` by `foldl_mark_mine`),
append the candidate if no structurally equal sentence is present, and run
`mark_cells`. -/
def AIState.addStage3 (st : AIState) (cell : Cell) (count : ℤ) : AIState :=
  let st1 : AIState := { st with moves_made := insert cell st.moves_made,
                                 safes := insert cell st.safes }
  let nbrs := neighborsList st1.height st1.width cell
  let cellsL := nbrs.filter (fun c => c ∉ st1.safes)
  let s0 : Sentence := ⟨cellsL.toFinset, count⟩
  let s1 : Sentence :=
    if st1.knowledge = [] then s0 else s0.removeMines st1.mines
  AIState.mark_cells { st1 with knowledge := dedupAppend st1.knowledge s1 }

/-- Embedding of `MinesweeperAI.add_knowledge`: the stage above, then the
resolution pass (all candidates collected against the current knowledge list
and appended together), then `mark_cells` again. -/
def AIState.add_knowledge (st : AIState) (cell : Cell) (count : ℤ) : AIState :=
  let st3 := st.addStage3 cell count
  let news := resolutionCandidates st3.knowledge
  AIState.mark_cells { st3 with knowledge := st3.knowledge ++ news }

/-- A sequence of `add_knowledge` calls starting from a given state. -/
def runCalls (st : AIState) (calls : List (Cell × ℤ)) : AIState :=
  calls.foldl (fun s p => s.add_knowledge p.1 p.2) st

/-- The grid cells in the iteration order of `MinesweeperAI.make_random_move`
(`for i in range(self.height): for j in range(self.width)`): row i lists
`(i, 0) … (i, width-1)`, and rows are listed in increasing order. -/
def rowMajor (width : ℕ) : ℕ → List Cell
  | 0 => []
  | h + 1 => rowMajor width h ++ (List.range width).map (fun j => (h, j))

/-- Embedding of `MinesweeperAI.make_random_move`: despite its name the
source uses no randomness; it returns the first grid cell, in row-major
order, that is neither in `self.moves_made` nor in `self.mines`, and `None`
when no such cell exists.  It reads but never writes the state. -/
def AIState.make_random_move (st : AIState) : Option Cell :=
  (rowMajor st.width st.height).find?
    (fun c => decide (c ∉ st.moves_made ∧ c ∉ st.mines))

/-- Board model (class `Minesweeper`): dimensions and the set of mine cells.
In the source `self.board[i][j]` is kept equal to `(i, j) ∈ self.mines`
(both are updated together in `__init__` and nowhere else). -/
structure Board where
  height : ℕ
  width : ℕ
  mines : Finset Cell

/-- Predicate for the 3×3 window test of `Minesweeper.nearby_mines`: `m` is
within one row and one column of `cell` and is not `cell` itself. -/
def nearCell (cell m : Cell) : Prop :=
  m ≠ cell ∧ (m.1 + 1 = cell.1 ∨ m.1 = cell.1 ∨ m.1 = cell.1 + 1)
           ∧ (m.2 + 1 = cell.2 ∨ m.2 = cell.2 ∨ m.2 = cell.2 + 1)

instance (cell m : Cell) : Decidable (nearCell cell m) := by
  unfold nearCell; infer_instance

/-- Embedding of `Minesweeper.nearby_mines`: the number of in-bounds mine
cells within one row and column of `cell`, the cell itself excluded. -/
def Board.nearby_mines (b : Board) (cell : Cell) : ℕ :=
  (b.mines.filter (fun m => m.1 < b.height ∧ m.2 < b.width ∧ nearCell cell m)).card

/-- A call list is truthful for a board when every call reveals an in-bounds
non-mine cell of that board together with its true `nearby_mines` count. -/
def Truthful (b : Board) (calls : List (Cell × ℤ)) : Prop :=
  ∀ p ∈ calls, p.1.1 < b.height ∧ p.1.2 < b.width ∧ p.1 ∉ b.mines ∧
    p.2 = (b.nearby_mines p.1 : ℤ)

instance (b : Board) (calls : List (Cell × ℤ)) : Decidable (Truthful b calls) := by
  unfold Truthful; infer_instance

/-- A sentence is true on a board when exactly `count` of its cells are
mines of that board. -/
def SentenceTrue (b : Board) (s : Sentence) : Prop :=
  ((s.cells ∩ b.mines).card : ℤ) = s.count

/-- Soundness invariant tying an AI state to a board: the dimensions agree,
every sentence in the knowledge list is true, every cell in `safes` is not a
mine, and every cell in `mines` is a mine. -/
def Sound (b : Board) (st : AIState) : Prop :=
  st.height = b.height ∧ st.width = b.width ∧
  (∀ s ∈ st.knowledge, SentenceTrue b s) ∧
  (∀ c ∈ st.safes, c ∉ b.mines) ∧
  (∀ c ∈ st.mines, c ∈ b.mines)

/-- One iteration body of the mine-placement loop of `Minesweeper.__init__`
for a drawn position `c`: `if not self.board[i][j]`, add the position to
`self.mines` (and set `self.board[i][j]`, which the model keeps identified
with membership in `mines`). -/
def placeStep (m : Finset Cell) (c : Cell) : Finset Cell :=
  if c ∈ m then m else insert c m

/-- All cells mentioned by some sentence of the knowledge list (used to
bound how many cells the deduction pass can ever mark). -/
def AIState.cellsUnion (st : AIState) : Finset Cell :=
  st.knowledge.foldr (fun s acc => s.cells ∪ acc) ∅

/-- Every cell the state knows about: the recorded safes and mines plus all
cells mentioned by sentences. -/
def AIState.support (st : AIState) : Finset Cell :=
  st.safes ∪ st.mines ∪ st.cellsUnion

/-- Row-major order on cells: the order in which the nested loops of
`make_random_move` visit the grid. -/
def rmLT (x y : Cell) : Prop :=
  x.1 < y.1 ∨ (x.1 = y.1 ∧ x.2 < y.2)

/-! ### Basic sentence lemmas and fold justifications

The Python source iterates over `set` objects whose element order is
unspecified.  The lemmas of this section show that every such marking loop
computes the same result for every iteration order, namely the closed forms
`Sentence.removeSafes`, `Sentence.removeMines` and `AIState.mark_cells`
used in the embedding. -/

theorem Sentence.mark_safe_eq (s : Sentence) (c : Cell) :
    s.mark_safe c = ⟨s.cells.erase c, s.count⟩ := by
  unfold Sentence.mark_safe
  split
  · rfl
  · next h => rw [Finset.erase_eq_of_not_mem h]

theorem Sentence.removeSafes_erase (s : Sentence) (c : Cell) (F : Finset Cell) :
    (⟨s.cells.erase c, s.count⟩ : Sentence).removeSafes F
      = s.removeSafes (insert c F) := by
  unfold Sentence.removeSafes
  refine Sentence.ext ?_ rfl
  ext x
  simp only [Finset.mem_sdiff, Finset.mem_erase, Finset.mem_insert]
  tauto

theorem Sentence.removeMines_mark_mine (s : Sentence) (c : Cell) (F : Finset Cell) :
    (s.mark_mine c).removeMines F = s.removeMines (insert c F) := by
  by_cases h : c ∈ s.cells
  · have hset : s.cells ∩ insert c F = insert c ((s.cells.erase c) ∩ F) := by
      ext x
      by_cases hx : x = c <;>
        simp [hx, h, Finset.mem_inter, Finset.mem_insert, Finset.mem_erase]
    have hnot : c ∉ (s.cells.erase c) ∩ F := by
      simp [Finset.mem_inter, Finset.mem_erase]
    unfold Sentence.mark_mine Sentence.removeMines
    rw [if_pos h]
    refine Sentence.ext ?_ ?_
    · ext x
      simp only [Finset.mem_sdiff, Finset.mem_erase, Finset.mem_insert]
      tauto
    · simp only [hset, Finset.card_insert_of_not_mem hnot]
      push_cast
      ring
  · have hset : s.cells ∩ insert c F = s.cells ∩ F := by
      ext x
      by_cases hx : x = c <;>
        simp [hx, h, Finset.mem_inter, Finset.mem_insert]
    have hcells : s.cells \ insert c F = s.cells \ F := by
      ext x
      by_cases hx : x = c <;>
        simp [hx, h, Finset.mem_sdiff, Finset.mem_insert]
    unfold Sentence.mark_mine Sentence.removeMines
    rw [if_neg h]
    refine Sentence.ext hcells.symm ?_
    rw [hset]

theorem Sentence.removeSafes_empty (s : Sentence) : s.removeSafes ∅ = s := by
  unfold Sentence.removeSafes
  refine Sentence.ext ?_ rfl
  simp

theorem Sentence.removeMines_empty (s : Sentence) : s.removeMines ∅ = s := by
  unfold Sentence.removeMines
  refine Sentence.ext ?_ ?_ <;> simp

/-- For every iteration order `L` of a set of cells, the loop
`for cell in L: sentence.mark_safe(cell)` produces `removeSafes` by the
set of those cells. -/
theorem foldl_mark_safe (L : List Cell) : ∀ s : Sentence,
    L.foldl Sentence.mark_safe s = s.removeSafes L.toFinset := by
  induction L with
  | nil => intro s; simpa using (Sentence.removeSafes_empty s).symm
  | cons c L ih =>
      intro s
      rw [List.foldl_cons, ih, Sentence.mark_safe_eq, Sentence.removeSafes_erase]
      simp

/-- For every iteration order `L` of a set of cells, the loop
`for cell in L: sentence.mark_mine(cell)` produces `removeMines` by the
set of those cells. -/
theorem foldl_mark_mine (L : List Cell) : ∀ s : Sentence,
    L.foldl Sentence.mark_mine s = s.removeMines L.toFinset := by
  induction L with
  | nil => intro s; simpa using (Sentence.removeMines_empty s).symm
  | cons c L ih =>
      intro s
      rw [List.foldl_cons, ih, Sentence.removeMines_mark_mine]
      simp

/-- For every iteration order `L`, the loop
`for cell in L: self.mark_safe(cell)` on the AI state adds the cells of `L`
to `safes` and removes them from every sentence. -/
theorem foldl_state_mark_safe (L : List Cell) : ∀ st : AIState,
    L.foldl AIState.mark_safe st =
      { st with safes := st.safes ∪ L.toFinset,
                knowledge := st.knowledge.map (fun s => s.removeSafes L.toFinset) } := by
  induction L with
  | nil =>
      intro st
      simp [Sentence.removeSafes_empty]
  | cons c L ih =>
      intro st
      rw [List.foldl_cons, ih]
      unfold AIState.mark_safe
      refine AIState.ext rfl rfl rfl ?_ rfl ?_
      · simp [Finset.union_comm, Finset.union_assoc, Finset.union_left_comm]
      · rw [List.map_map]
        refine List.map_congr_left ?_
        intro s _
        simp only [Function.comp_apply, Sentence.mark_safe_eq,
          Sentence.removeSafes_erase]
        simp

/-- For every iteration order `L`, the loop
`for cell in L: self.mark_mine(cell)` on the AI state adds the cells of `L`
to `mines` and applies `removeMines` by the set of `L` to every sentence. -/
theorem foldl_state_mark_mine (L : List Cell) : ∀ st : AIState,
    L.foldl AIState.mark_mine st =
      { st with mines := st.mines ∪ L.toFinset,
                knowledge := st.knowledge.map (fun s => s.removeMines L.toFinset) } := by
  induction L with
  | nil =>
      intro st
      simp [Sentence.removeMines_empty]
  | cons c L ih =>
      intro st
      rw [List.foldl_cons, ih]
      unfold AIState.mark_mine
      refine AIState.ext rfl rfl rfl rfl ?_ ?_
      · simp [Finset.union_comm, Finset.union_assoc, Finset.union_left_comm]
      · rw [List.map_map]
        refine List.map_congr_left ?_
        intro s _
        simp only [Function.comp_apply, Sentence.removeMines_mark_mine]
        simp

/-- Justification of the embedding of `MinesweeperAI.mark_cells`: whatever
order the Python lists `safes` and `mines` enumerate the collected cells in,
marking all collected safes and then all collected mines produces exactly
the state `AIState.mark_cells`. -/
theorem mark_cells_eq_marking_loops (st : AIState) (Ls Lm : List Cell)
    (hs : Ls.toFinset = st.collectSafes) (hm : Lm.toFinset = st.collectMines) :
    Lm.foldl AIState.mark_mine (Ls.foldl AIState.mark_safe st) = st.mark_cells := by
  rw [foldl_state_mark_safe, foldl_state_mark_mine]
  unfold AIState.mark_cells
  refine AIState.ext rfl rfl rfl ?_ ?_ ?_
  · simp [hs]
  · simp [hm]
  · rw [List.map_map]
    refine List.map_congr_left ?_
    intro s _
    simp [hs, hm]

/-! ### Membership characterizations -/

theorem mem_foldr_union (f : Sentence → Finset Cell) (kn : List Sentence) (c : Cell) :
    c ∈ kn.foldr (fun s acc => f s ∪ acc) ∅ ↔ ∃ s ∈ kn, c ∈ f s := by
  induction kn with
  | nil => simp
  | cons s kn ih => simp [ih]

theorem mem_collectSafes (st : AIState) (c : Cell) :
    c ∈ st.collectSafes ↔ (∃ s ∈ st.knowledge, c ∈ s.known_safes) ∧ c ∉ st.safes := by
  unfold AIState.collectSafes
  simp [Finset.mem_sdiff, mem_foldr_union]

theorem mem_collectMines (st : AIState) (c : Cell) :
    c ∈ st.collectMines ↔ (∃ s ∈ st.knowledge, c ∈ s.known_mines) ∧ c ∉ st.mines := by
  unfold AIState.collectMines
  simp [Finset.mem_sdiff, mem_foldr_union]

theorem known_safes_subset_cells (s : Sentence) : s.known_safes ⊆ s.cells := by
  unfold Sentence.known_safes
  split
  · exact Finset.Subset.refl _
  · exact Finset.empty_subset _

theorem known_mines_subset_cells (s : Sentence) : s.known_mines ⊆ s.cells := by
  unfold Sentence.known_mines
  split
  · exact Finset.Subset.refl _
  · exact Finset.empty_subset _

/-- Membership in the resolution pass output: exactly the difference
sentences of ordered pairs of distinct sentences with the subset property,
subject to the non-empty, non-negative, and not-already-known checks. -/
theorem mem_resolutionCandidates (kn : List Sentence) (s : Sentence) :
    s ∈ resolutionCandidates kn ↔
      ∃ s1 ∈ kn, ∃ s2 ∈ kn, s1 ≠ s2 ∧ s1.cells ⊆ s2.cells ∧
        0 < (s2.cells \ s1.cells).card ∧ 0 ≤ s2.count - s1.count ∧
        (⟨s2.cells \ s1.cells, s2.count - s1.count⟩ : Sentence) ∉ kn ∧
        s = ⟨s2.cells \ s1.cells, s2.count - s1.count⟩ := by
  unfold resolutionCandidates
  simp only [List.mem_flatMap, List.mem_filterMap]
  constructor
  · rintro ⟨s1, hs1, s2, hs2, heq⟩
    refine ⟨s1, hs1, s2, hs2, ?_⟩
    split at heq
    · next hcond =>
        injection heq with heq
        subst heq
        exact ⟨hcond.1, hcond.2.1, hcond.2.2.1, hcond.2.2.2.1, hcond.2.2.2.2, rfl⟩
    · exact absurd heq (by simp)
  · rintro ⟨s1, hs1, s2, hs2, hne, hsub, hpos, hnn, hnotin, rfl⟩
    refine ⟨s1, hs1, s2, hs2, ?_⟩
    rw [if_pos ⟨hne, hsub, hpos, hnn, hnotin⟩]

theorem mem_ite_nil {α : Type} {P : Prop} [Decidable P] (l : List α) (x : α) :
    (x ∈ if P then l else []) ↔ P ∧ x ∈ l := by
  split
  · next h => simp [h]
  · next h => simp [h]

/-- Characterization of the neighbor list built by `add_knowledge` for an
in-bounds cell: exactly the in-bounds cells, distinct from the cell itself,
within one row and one column of it. -/
theorem mem_neighborsList {h w i j a b : ℕ} (hi : i < h) (hj : j < w) :
    (a, b) ∈ neighborsList h w (i, j) ↔
      ((a, b) ≠ (i, j) ∧ a < h ∧ b < w ∧
       (a + 1 = i ∨ a = i ∨ a = i + 1) ∧ (b + 1 = j ∨ b = j ∨ b = j + 1)) := by
  unfold neighborsList
  simp only [List.mem_append, mem_ite_nil, List.mem_singleton,
    Prod.mk.injEq, ne_eq, not_and]
  omega

theorem mem_dedupAppend {kn : List Sentence} {t s : Sentence}
    (h : s ∈ dedupAppend kn t) : s ∈ kn ∨ s = t := by
  unfold dedupAppend at h
  split at h
  · exact Or.inl h
  · rcases List.mem_append.mp h with h | h
    · exact Or.inl h
    · exact Or.inr (List.mem_singleton.mp h)

/-! ### Truth of sentences is preserved by every knowledge operation -/

theorem sentenceTrue_bounds {b : Board} {s : Sentence} (h : SentenceTrue b s) :
    0 ≤ s.count ∧ s.count ≤ (s.cells.card : ℤ) := by
  unfold SentenceTrue at h
  have hle : (s.cells ∩ b.mines).card ≤ s.cells.card :=
    Finset.card_le_card Finset.inter_subset_left
  omega

theorem sentenceTrue_removeSafes {b : Board} {s : Sentence} {S : Finset Cell}
    (hs : SentenceTrue b s) (hS : ∀ c ∈ S, c ∉ b.mines) :
    SentenceTrue b (s.removeSafes S) := by
  unfold SentenceTrue Sentence.removeSafes at *
  have hset : (s.cells \ S) ∩ b.mines = s.cells ∩ b.mines := by
    ext x
    simp only [Finset.mem_sdiff, Finset.mem_inter]
    constructor
    · rintro ⟨⟨h1, _⟩, h3⟩; exact ⟨h1, h3⟩
    · rintro ⟨h1, h3⟩; exact ⟨⟨h1, fun hxS => hS x hxS h3⟩, h3⟩
  simpa [hset] using hs

theorem sentenceTrue_removeMines {b : Board} {s : Sentence} {M : Finset Cell}
    (hs : SentenceTrue b s) (hM : ∀ c ∈ M, c ∈ b.mines) :
    SentenceTrue b (s.removeMines M) := by
  unfold SentenceTrue Sentence.removeMines at *
  have hsub : s.cells ∩ M ⊆ s.cells ∩ b.mines := by
    intro x hx
    rw [Finset.mem_inter] at hx ⊢
    exact ⟨hx.1, hM x hx.2⟩
  have hset : (s.cells \ M) ∩ b.mines = (s.cells ∩ b.mines) \ (s.cells ∩ M) := by
    ext x
    simp only [Finset.mem_sdiff, Finset.mem_inter]
    constructor
    · rintro ⟨⟨h1, h2⟩, h3⟩; exact ⟨⟨h1, h3⟩, fun hh => h2 hh.2⟩
    · rintro ⟨⟨h1, h3⟩, h2⟩; exact ⟨⟨h1, fun hm => h2 ⟨h1, hm⟩⟩, h3⟩
  have hle := Finset.card_le_card hsub
  simp only [hset, Finset.card_sdiff hsub]
  omega

theorem known_safes_not_mine {b : Board} {s : Sentence} {c : Cell}
    (hs : SentenceTrue b s) (hc : c ∈ s.known_safes) : c ∉ b.mines := by
  unfold Sentence.known_safes at hc
  split at hc
  · next h0 =>
      intro hcm
      unfold SentenceTrue at hs
      rw [h0] at hs
      have hcard : (s.cells ∩ b.mines).card = 0 := by exact_mod_cast hs
      have hempty : s.cells ∩ b.mines = ∅ := Finset.card_eq_zero.mp hcard
      have hmem : c ∈ s.cells ∩ b.mines := Finset.mem_inter.mpr ⟨hc, hcm⟩
      rw [hempty] at hmem
      exact Finset.not_mem_empty c hmem
  · exact absurd hc (Finset.not_mem_empty c)

theorem known_mines_mine {b : Board} {s : Sentence} {c : Cell}
    (hs : SentenceTrue b s) (hc : c ∈ s.known_mines) : c ∈ b.mines := by
  unfold Sentence.known_mines at hc
  split at hc
  · next hcard =>
      unfold SentenceTrue at hs
      have h1 : (s.cells ∩ b.mines).card = s.cells.card := by
        have := hs.trans hcard.symm
        exact_mod_cast this
      have h2 : s.cells ∩ b.mines = s.cells :=
        Finset.eq_of_subset_of_card_le Finset.inter_subset_left (by omega)
      have hmem : c ∈ s.cells ∩ b.mines := h2.symm ▸ hc
      exact (Finset.mem_inter.mp hmem).2
  · exact absurd hc (Finset.not_mem_empty c)

theorem sentenceTrue_resolution {b : Board} {kn : List Sentence}
    (hkn : ∀ t ∈ kn, SentenceTrue b t) :
    ∀ s ∈ resolutionCandidates kn, SentenceTrue b s := by
  intro s hs
  rw [mem_resolutionCandidates] at hs
  obtain ⟨s1, hs1, s2, hs2, hne, hsub, hpos, hnn, hnotin, rfl⟩ := hs
  have h1 := hkn s1 hs1
  have h2 := hkn s2 hs2
  unfold SentenceTrue at *
  have hisub : s1.cells ∩ b.mines ⊆ s2.cells ∩ b.mines :=
    Finset.inter_subset_inter hsub (Finset.Subset.refl _)
  have hset : (s2.cells \ s1.cells) ∩ b.mines
      = (s2.cells ∩ b.mines) \ (s1.cells ∩ b.mines) := by
    ext x
    simp only [Finset.mem_sdiff, Finset.mem_inter]
    constructor
    · rintro ⟨⟨ha, hb⟩, hm⟩; exact ⟨⟨ha, hm⟩, fun hh => hb hh.1⟩
    · rintro ⟨⟨ha, hm⟩, hb⟩; exact ⟨⟨ha, fun h1c => hb ⟨h1c, hm⟩⟩, hm⟩
  have hle := Finset.card_le_card hisub
  simp only [hset, Finset.card_sdiff hisub]
  omega

/-! ### Soundness of the knowledge base on truthful observations -/

theorem sound_mark_cells {b : Board} {st : AIState} (h : Sound b st) :
    Sound b st.mark_cells := by
  obtain ⟨hh, hw, hkn, hsafe, hmine⟩ := h
  have hS : ∀ c ∈ st.collectSafes, c ∉ b.mines := by
    intro c hc
    rw [mem_collectSafes] at hc
    obtain ⟨⟨s, hsk, hcs⟩, -⟩ := hc
    exact known_safes_not_mine (hkn s hsk) hcs
  have hM : ∀ c ∈ st.collectMines, c ∈ b.mines := by
    intro c hc
    rw [mem_collectMines] at hc
    obtain ⟨⟨s, hsk, hcs⟩, -⟩ := hc
    exact known_mines_mine (hkn s hsk) hcs
  refine ⟨hh, hw, ?_, ?_, ?_⟩
  · intro s hs
    simp only [AIState.mark_cells, List.mem_map] at hs
    obtain ⟨t, htk, rfl⟩ := hs
    exact sentenceTrue_removeMines (sentenceTrue_removeSafes (hkn t htk) hS) hM
  · intro c hc
    simp only [AIState.mark_cells, Finset.mem_union] at hc
    rcases hc with h | h
    exacts [hsafe c h, hS c h]
  · intro c hc
    simp only [AIState.mark_cells, Finset.mem_union] at hc
    rcases hc with h | h
    exacts [hmine c h, hM c h]

/-- The candidate sentence built by `add_knowledge` from a truthful
observation is true: its cells are the in-bounds neighbors of the revealed
cell not already recorded safe, and — because recorded safe cells and the
revealed cell itself are not mines — dropping them from the neighborhood
does not change the number of mines counted by `nearby_mines`. -/
theorem candidate_true {b : Board} {F : Finset Cell} (cell : Cell)
    (hi : cell.1 < b.height) (hj : cell.2 < b.width) (hcm : cell ∉ b.mines)
    (hF : ∀ c ∈ F, c ∉ b.mines) :
    SentenceTrue b ⟨((neighborsList b.height b.width cell).filter
        (fun c => c ∉ insert cell F)).toFinset, (b.nearby_mines cell : ℤ)⟩ := by
  unfold SentenceTrue Board.nearby_mines
  have hset : ((neighborsList b.height b.width cell).filter
        (fun c => c ∉ insert cell F)).toFinset ∩ b.mines
      = b.mines.filter (fun m => m.1 < b.height ∧ m.2 < b.width ∧ nearCell cell m) := by
    ext m
    obtain ⟨a, e⟩ := m
    obtain ⟨i, j⟩ := cell
    simp only [Finset.mem_inter, List.mem_toFinset, List.mem_filter,
      Finset.mem_filter, decide_eq_true_eq, Finset.mem_insert, not_or]
    constructor
    · rintro ⟨⟨hmem, hnotsafe⟩, hbm⟩
      rw [mem_neighborsList hi hj] at hmem
      obtain ⟨hne, ha, he, hrow, hcol⟩ := hmem
      exact ⟨hbm, ha, he, hne, hrow, hcol⟩
    · rintro ⟨hbm, ha, he, hne, hrow, hcol⟩
      refine ⟨⟨?_, ?_, ?_⟩, hbm⟩
      · rw [mem_neighborsList hi hj]
        exact ⟨hne, ha, he, hrow, hcol⟩
      · exact hne
      · intro hmemF
        exact hF _ hmemF hbm
  rw [hset]

theorem sound_addStage3 {b : Board} {st : AIState} {cell : Cell} {n : ℤ}
    (h : Sound b st) (hi : cell.1 < b.height) (hj : cell.2 < b.width)
    (hcm : cell ∉ b.mines) (hn : n = (b.nearby_mines cell : ℤ)) :
    Sound b (st.addStage3 cell n) := by
  obtain ⟨hh, hw, hkn, hsafe, hmine⟩ := h
  have hsafe' : ∀ c ∈ insert cell st.safes, c ∉ b.mines := by
    intro c hc
    rcases Finset.mem_insert.mp hc with rfl | hc
    exacts [hcm, hsafe c hc]
  have hs0 : SentenceTrue b
      ⟨((neighborsList st.height st.width cell).filter
          (fun c => c ∉ insert cell st.safes)).toFinset, n⟩ := by
    rw [hn, hh, hw]
    exact candidate_true cell hi hj hcm hsafe
  unfold AIState.addStage3
  apply sound_mark_cells
  refine ⟨hh, hw, ?_, hsafe', hmine⟩
  intro s hs
  simp only at hs
  have hs1 : SentenceTrue b (if st.knowledge = [] then
      (⟨((neighborsList st.height st.width cell).filter
          (fun c => c ∉ insert cell st.safes)).toFinset, n⟩ : Sentence)
    else (⟨((neighborsList st.height st.width cell).filter
          (fun c => c ∉ insert cell st.safes)).toFinset, n⟩ : Sentence).removeMines st.mines) := by
    split
    · exact hs0
    · exact sentenceTrue_removeMines hs0 hmine
  rcases mem_dedupAppend hs with hs | rfl
  · exact hkn s hs
  · exact hs1

theorem sound_add_knowledge {b : Board} {st : AIState} {cell : Cell} {n : ℤ}
    (h : Sound b st) (hi : cell.1 < b.height) (hj : cell.2 < b.width)
    (hcm : cell ∉ b.mines) (hn : n = (b.nearby_mines cell : ℤ)) :
    Sound b (st.add_knowledge cell n) := by
  have h3 := sound_addStage3 h hi hj hcm hn
  obtain ⟨hh, hw, hkn, hsafe, hmine⟩ := h3
  unfold AIState.add_knowledge
  apply sound_mark_cells
  refine ⟨hh, hw, ?_, hsafe, hmine⟩
  intro s hs
  simp only at hs
  rcases List.mem_append.mp hs with hs | hs
  · exact hkn s hs
  · exact sentenceTrue_resolution hkn s hs

theorem sound_initAI (b : Board) : Sound b (initAI b.height b.width) := by
  refine ⟨rfl, rfl, ?_, ?_, ?_⟩ <;> simp [initAI]

theorem sound_runCalls {b : Board} (calls : List (Cell × ℤ)) :
    ∀ st : AIState, Sound b st → Truthful b calls → Sound b (runCalls st calls) := by
  induction calls with
  | nil => intro st h _; exact h
  | cons p rest ih =>
      intro st h ht
      have hp := ht p (List.mem_cons_self p rest)
      have hrest : Truthful b rest := fun q hq => ht q (List.mem_cons_of_mem p hq)
      unfold runCalls at *
      rw [List.foldl_cons]
      exact ih _ (sound_add_knowledge h hp.1 hp.2.1 hp.2.2.1 hp.2.2.2) hrest

/-! ### Monotonicity of the safes and mines sets -/

theorem safes_subset_add_knowledge (st : AIState) (cell : Cell) (n : ℤ) :
    st.safes ⊆ (st.add_knowledge cell n).safes := by
  intro x hx
  simp only [AIState.add_knowledge, AIState.addStage3, AIState.mark_cells,
    Finset.mem_union, Finset.mem_insert]
  tauto

theorem mines_subset_add_knowledge (st : AIState) (cell : Cell) (n : ℤ) :
    st.mines ⊆ (st.add_knowledge cell n).mines := by
  intro x hx
  simp only [AIState.add_knowledge, AIState.addStage3, AIState.mark_cells,
    Finset.mem_union, Finset.mem_insert]
  tauto

/-! ### The deduction pass strictly grows the marked sets or is a fixpoint -/

theorem mark_cells_fix_or_grow (st : AIState) :
    st.mark_cells = st ∨
      st.safes.card + st.mines.card
        < st.mark_cells.safes.card + st.mark_cells.mines.card := by
  by_cases hS : st.collectSafes = ∅
  · by_cases hM : st.collectMines = ∅
    · left
      simp only [AIState.mark_cells, hS, hM, Finset.union_empty,
        Sentence.removeSafes_empty, Sentence.removeMines_empty, List.map_id']
    · right
      have hdS : Disjoint st.safes st.collectSafes :=
        (Finset.sdiff_disjoint).symm
      have hdM : Disjoint st.mines st.collectMines :=
        (Finset.sdiff_disjoint).symm
      have hMpos : 0 < st.collectMines.card :=
        Finset.card_pos.mpr (Finset.nonempty_iff_ne_empty.mpr hM)
      simp only [AIState.mark_cells, Finset.card_union_of_disjoint hdS,
        Finset.card_union_of_disjoint hdM]
      omega
  · right
    have hdS : Disjoint st.safes st.collectSafes :=
      (Finset.sdiff_disjoint).symm
    have hdM : Disjoint st.mines st.collectMines :=
      (Finset.sdiff_disjoint).symm
    have hSpos : 0 < st.collectSafes.card :=
      Finset.card_pos.mpr (Finset.nonempty_iff_ne_empty.mpr hS)
    simp only [AIState.mark_cells, Finset.card_union_of_disjoint hdS,
      Finset.card_union_of_disjoint hdM]
    omega

theorem collectSafes_subset_cellsUnion (st : AIState) :
    st.collectSafes ⊆ st.cellsUnion := by
  intro c hc
  rw [mem_collectSafes] at hc
  obtain ⟨⟨s, hsk, hcs⟩, -⟩ := hc
  exact (mem_foldr_union Sentence.cells st.knowledge c).mpr
    ⟨s, hsk, known_safes_subset_cells s hcs⟩

theorem collectMines_subset_cellsUnion (st : AIState) :
    st.collectMines ⊆ st.cellsUnion := by
  intro c hc
  rw [mem_collectMines] at hc
  obtain ⟨⟨s, hsk, hcs⟩, -⟩ := hc
  exact (mem_foldr_union Sentence.cells st.knowledge c).mpr
    ⟨s, hsk, known_mines_subset_cells s hcs⟩

theorem cellsUnion_mark_cells (st : AIState) :
    st.mark_cells.cellsUnion ⊆ st.cellsUnion := by
  intro c hc
  unfold AIState.cellsUnion at hc
  simp only [AIState.mark_cells] at hc
  rw [mem_foldr_union] at hc
  obtain ⟨s, hsk, hcs⟩ := hc
  simp only [List.mem_map] at hsk
  obtain ⟨t, htk, rfl⟩ := hsk
  have hsub : ((t.removeSafes st.collectSafes).removeMines st.collectMines).cells
      ⊆ t.cells := by
    unfold Sentence.removeSafes Sentence.removeMines
    intro x hx
    simp only [Finset.mem_sdiff] at hx
    exact hx.1.1
  exact (mem_foldr_union Sentence.cells st.knowledge c).mpr ⟨t, htk, hsub hcs⟩

theorem support_mark_cells (st : AIState) :
    st.mark_cells.support ⊆ st.support := by
  intro c hc
  unfold AIState.support at hc ⊢
  simp only [Finset.mem_union] at hc ⊢
  rcases hc with (hc | hc) | hc
  · simp only [AIState.mark_cells, Finset.mem_union] at hc
    rcases hc with h | h
    · exact Or.inl (Or.inl h)
    · exact Or.inr (collectSafes_subset_cellsUnion st h)
  · simp only [AIState.mark_cells, Finset.mem_union] at hc
    rcases hc with h | h
    · exact Or.inl (Or.inr h)
    · exact Or.inr (collectMines_subset_cellsUnion st h)
  · exact Or.inr (cellsUnion_mark_cells st hc)

theorem support_iterate (st : AIState) :
    ∀ n : ℕ, (AIState.mark_cells^[n] st).support ⊆ st.support := by
  intro n
  induction n with
  | zero => exact Finset.Subset.refl _
  | succ k ih =>
      rw [Function.iterate_succ_apply']
      exact (support_mark_cells _).trans ih

theorem measure_le_support (st : AIState) :
    st.safes.card + st.mines.card ≤ 2 * st.support.card := by
  have h1 : st.safes ⊆ st.support := by
    unfold AIState.support
    exact Finset.subset_union_left.trans Finset.subset_union_left |>.trans
      (Finset.Subset.refl _)
  have h2 : st.mines ⊆ st.support := by
    unfold AIState.support
    intro x hx
    simp only [Finset.mem_union]
    exact Or.inl (Or.inr hx)
  have := Finset.card_le_card h1
  have := Finset.card_le_card h2
  omega

/-- Iterating the deduction pass from any state reaches a fixpoint after
finitely many passes: each non-fixpoint pass strictly grows
`|safes| + |mines|`, which is bounded by twice the (never growing) number of
cells the state mentions. -/
theorem mark_cells_eventual_fix (st : AIState) :
    ∃ n : ℕ, AIState.mark_cells^[n+1] st = AIState.mark_cells^[n] st := by
  by_contra hc
  push_neg at hc
  have hgrow : ∀ n : ℕ, n + (st.safes.card + st.mines.card) ≤
      (AIState.mark_cells^[n] st).safes.card
        + (AIState.mark_cells^[n] st).mines.card := by
    intro n
    induction n with
    | zero => simp
    | succ k ih =>
        rcases mark_cells_fix_or_grow (AIState.mark_cells^[k] st) with hfix | hlt
        · exfalso
          apply hc k
          rw [Function.iterate_succ_apply']
          exact hfix
        · rw [Function.iterate_succ_apply']
          omega
  have hbound := hgrow (2 * st.support.card + 1)
  have hsup := Finset.card_le_card (support_iterate st (2 * st.support.card + 1))
  have hms := measure_le_support (AIState.mark_cells^[2 * st.support.card + 1] st)
  have hsup2 : (AIState.mark_cells^[2 * st.support.card + 1] st).support.card
      ≤ st.support.card := hsup
  omega

/-! ### Row-major search of `make_random_move` -/

theorem mem_rowMajor (w : ℕ) :
    ∀ (h : ℕ) (a b : ℕ), (a, b) ∈ rowMajor w h ↔ a < h ∧ b < w := by
  intro h
  induction h with
  | zero => intro a b; simp [rowMajor]
  | succ k ih =>
      intro a b
      simp only [rowMajor, List.mem_append, List.mem_map, List.mem_range, ih,
        Prod.mk.injEq]
      constructor
      · rintro (⟨ha, hb⟩ | ⟨j, hj, hk, hjb⟩)
        · exact ⟨Nat.lt_succ_of_lt ha, hb⟩
        · subst hk
          subst hjb
          exact ⟨Nat.lt_succ_self _, hj⟩
      · rintro ⟨ha, hb⟩
        by_cases hak : a < k
        · exact Or.inl ⟨hak, hb⟩
        · have hek : a = k := by omega
          exact Or.inr ⟨b, hb, hek.symm, rfl⟩

theorem rowMajor_pairwise (w : ℕ) : ∀ h : ℕ, (rowMajor w h).Pairwise rmLT := by
  intro h
  induction h with
  | zero => simp [rowMajor]
  | succ k ih =>
      rw [rowMajor]
      refine List.pairwise_append.mpr ⟨ih, ?_, ?_⟩
      · refine List.pairwise_map.mpr ?_
        refine List.Pairwise.imp ?_ (List.pairwise_lt_range w)
        intro a b hab
        exact Or.inr ⟨rfl, hab⟩
      · intro x hx y hy
        obtain ⟨a, c⟩ := x
        rw [mem_rowMajor] at hx
        simp only [List.mem_map, List.mem_range] at hy
        obtain ⟨j, hj, rfl⟩ := hy
        exact Or.inl hx.1

theorem find?_first {α : Type} {R : α → α → Prop} {p : α → Bool} :
    ∀ (l : List α), l.Pairwise R → ∀ a : α, l.find? p = some a →
      ∀ b ∈ l, p b = true → a = b ∨ R a b := by
  intro l
  induction l with
  | nil => intro _ a ha; simp at ha
  | cons x t ih =>
      intro hp a ha b hb hpb
      obtain ⟨hpx, hpt⟩ := List.pairwise_cons.mp hp
      by_cases hx : p x = true
      · rw [List.find?_cons_of_pos _ hx] at ha
        injection ha with ha
        subst ha
        rcases List.mem_cons.mp hb with rfl | hbt
        · exact Or.inl rfl
        · exact Or.inr (hpx b hbt)
      · rw [List.find?_cons_of_neg _ hx] at ha
        rcases List.mem_cons.mp hb with rfl | hbt
        · rw [hpb] at hx
          exact absurd rfl hx
        · exact ih hpt a ha b hbt hpb

/-! ### Mine placement loop of the board constructor -/

theorem placeRun_subset (h w : ℕ) :
    ∀ (choices : List Cell) (M : Finset Cell),
      M ⊆ (Finset.range h) ×ˢ (Finset.range w) →
      (∀ c ∈ choices, c.1 < h ∧ c.2 < w) →
      choices.foldl placeStep M ⊆ (Finset.range h) ×ˢ (Finset.range w) := by
  intro choices
  induction choices with
  | nil => intro M hM _; simpa using hM
  | cons c rest ih =>
      intro M hM hc
      rw [List.foldl_cons]
      refine ih _ ?_ (fun x hx => hc x (List.mem_cons_of_mem c hx))
      unfold placeStep
      split
      · exact hM
      · intro x hx
        rcases Finset.mem_insert.mp hx with hxc | hx
        · have hcc := hc _ (List.mem_cons_self _ rest)
          rw [hxc]
          exact Finset.mem_product.mpr
            ⟨Finset.mem_range.mpr hcc.1, Finset.mem_range.mpr hcc.2⟩
        · exact hM hx

/-! ### Claim theorems -/

/-- C1: for every sequence of `add_knowledge` calls in which each call
supplies a revealed (in-bounds, non-mine) cell together with its true
adjacent-mine count for one fixed board, every cell that is ever a member of
the knowledge base's `mines` set is an actual mine of that board.  (Any
sequence quantified over here includes every prefix of a longer truthful
play, so "ever a member" is covered together with monotonicity of `mines`.) -/
theorem soundness_of_mine_inference (b : Board) (calls : List (Cell × ℤ))
    (ht : Truthful b calls) :
    ∀ c ∈ (runCalls (initAI b.height b.width) calls).mines, c ∈ b.mines := by
  have h := sound_runCalls calls (initAI b.height b.width) (sound_initAI b) ht
  exact h.2.2.2.2

theorem soundness_of_mine_inference_witness :
    Truthful ⟨1, 2, {(0,1)}⟩ [((0,0), 1)] ∧
    ∀ c ∈ (runCalls (initAI 1 2) [((0,0), 1)]).mines,
      c ∈ (⟨1, 2, {(0,1)}⟩ : Board).mines :=
  ⟨by decide, soundness_of_mine_inference ⟨1, 2, {(0,1)}⟩ [((0,0), 1)] (by decide)⟩

/-- C2: the claimed purge invariant fails in the code.  `add_knowledge` adds
the revealed cell to `self.safes` directly (`self.safes.add(cell)`, line
202) instead of calling `self.mark_safe(cell)`, so the revealed cell is not
removed from sentences already in `knowledge`.  On the 2×2 board with one
mine at (1,0), truthfully revealing (0,0) (count 1) and then (1,1) (count 1)
leaves the cell (1,1) in `safes` while it still appears in the cell set of a
sentence of `knowledge`. -/
theorem purge_invariant_violated :
    Truthful ⟨2, 2, {(1,0)}⟩ [((0,0), 1), ((1,1), 1)] ∧
    (1,1) ∈ (runCalls (initAI 2 2) [((0,0), 1), ((1,1), 1)]).safes ∧
    ∃ s ∈ (runCalls (initAI 2 2) [((0,0), 1), ((1,1), 1)]).knowledge,
      (1,1) ∈ s.cells := by
  decide

/-- C3 (amended): across any sequence of `add_knowledge` calls the sets
`safes` and `mines` never lose a member (each call only ever inserts); and
whenever the calls are truthful for a fixed board, `safes` and `mines` are
disjoint after every sequence of calls.  (Unconditional disjointness is
refuted by `safes_mines_disjoint_counterexample`.) -/
theorem safes_mines_monotone_and_truthful_disjoint :
    (∀ (st : AIState) (cell : Cell) (n : ℤ),
        st.safes ⊆ (st.add_knowledge cell n).safes ∧
        st.mines ⊆ (st.add_knowledge cell n).mines) ∧
    (∀ (b : Board) (calls : List (Cell × ℤ)), Truthful b calls →
        Disjoint (runCalls (initAI b.height b.width) calls).safes
                 (runCalls (initAI b.height b.width) calls).mines) := by
  constructor
  · intro st cell n
    exact ⟨safes_subset_add_knowledge st cell n, mines_subset_add_knowledge st cell n⟩
  · intro b calls ht
    have h := sound_runCalls calls (initAI b.height b.width) (sound_initAI b) ht
    rw [Finset.disjoint_left]
    intro a ha hm
    exact h.2.2.2.1 a ha (h.2.2.2.2 a hm)

theorem safes_mines_monotone_and_truthful_disjoint_witness :
    ((initAI 1 2).safes ⊆ ((initAI 1 2).add_knowledge (0,0) 1).safes ∧
     (initAI 1 2).mines ⊆ ((initAI 1 2).add_knowledge (0,0) 1).mines) ∧
    Disjoint (runCalls (initAI 1 2) [((0,0), 1)]).safes
             (runCalls (initAI 1 2) [((0,0), 1)]).mines :=
  ⟨safes_mines_monotone_and_truthful_disjoint.1 (initAI 1 2) (0,0) 1,
   safes_mines_monotone_and_truthful_disjoint.2 ⟨1, 2, {(0,1)}⟩ [((0,0), 1)] (by decide)⟩

/-- C3 counterexample to the claim as stated: the claim quantifies over any
sequence of `add_knowledge` calls, but with counts inconsistent with any
board the sets `safes` and `mines` can intersect.  After
`add_knowledge((0,0), 2); add_knowledge((1,1), 1)` on a 2×2 agent, the cell
(1,1) is recorded both safe (it was revealed) and a mine (resolution derives
the singleton sentence {(1,1)}=1 from {(0,1),(1,0),(1,1)}=2 and
{(0,1),(1,0)}=1). -/
theorem safes_mines_disjoint_counterexample :
    (1,1) ∈ (runCalls (initAI 2 2) [((0,0), 2), ((1,1), 1)]).safes ∧
    (1,1) ∈ (runCalls (initAI 2 2) [((0,0), 2), ((1,1), 1)]).mines := by
  decide

/-- C4 (amended): the deduction pass `mark_cells` is a deterministic
function of the state; if one call leaves the state unchanged the next call
does too, and from every state iterated calls reach a fixpoint after
finitely many passes.  But a single further call after `add_knowledge` need
not reach the fixpoint: `deduction_pass_idempotence_counterexample` exhibits
a reachable (even truthfully reachable) state on which the second of two
consecutive `mark_cells` calls still changes the state. -/
theorem deduction_pass_eventual_fixpoint :
    ∀ st : AIState,
      (st.mark_cells = st → st.mark_cells.mark_cells = st.mark_cells) ∧
      ∃ n : ℕ, AIState.mark_cells^[n+1] st = AIState.mark_cells^[n] st := by
  intro st
  constructor
  · intro h
    rw [h]
    exact h
  · exact mark_cells_eventual_fix st

theorem deduction_pass_eventual_fixpoint_witness :
    AIState.mark_cells (AIState.mark_cells (initAI 2 2))
      = AIState.mark_cells (initAI 2 2) ∧
    ∃ n : ℕ, AIState.mark_cells^[n+1] (initAI 2 2)
      = AIState.mark_cells^[n] (initAI 2 2) :=
  ⟨(deduction_pass_eventual_fixpoint (initAI 2 2)).1 (by decide),
   (deduction_pass_eventual_fixpoint (initAI 2 2)).2⟩

/-- C4 counterexample: a truthfully reachable state (1×10 board, mines at
(0,3) and (0,7), revealing (0,2), (0,4), (0,6), (0,8) and then (0,0) with
their true counts) on which calling `mark_cells` twice in a row still
changes the state on the second call: the pending chain
{(0,7)}=1, {(0,7),(0,9)}=1 needs one pass to mark the mine (0,7) and a
second pass to mark (0,9) safe. -/
theorem deduction_pass_idempotence_counterexample :
    Truthful ⟨1, 10, {(0,3),(0,7)}⟩
      [((0,2),1),((0,4),1),((0,6),1),((0,8),1),((0,0),0)] ∧
    (runCalls (initAI 1 10)
        [((0,2),1),((0,4),1),((0,6),1),((0,8),1),((0,0),0)]).mark_cells.mark_cells
      ≠ (runCalls (initAI 1 10)
        [((0,2),1),((0,4),1),((0,6),1),((0,8),1),((0,0),0)]).mark_cells := by
  decide

/-- C5: the resolution pass derives, for every ordered pair of distinct
sentences (A, B) in knowledge with A's cell set a subset of B's, the
sentence with cells `B.cells \ A.cells` and count `B.count - A.count`, and
keeps a candidate exactly when its cell set is non-empty, its count is
non-negative, and no structurally equal sentence is already in knowledge;
in particular, from knowledge holding exactly {A,B,C}=2 and {A,B}=1 it
derives {C}=1, and the following deduction pass makes C a known mine. -/
theorem resolution_rule_characterization :
    (∀ (kn : List Sentence) (s : Sentence),
        s ∈ resolutionCandidates kn ↔
          ∃ s1 ∈ kn, ∃ s2 ∈ kn, s1 ≠ s2 ∧ s1.cells ⊆ s2.cells ∧
            0 < (s2.cells \ s1.cells).card ∧ 0 ≤ s2.count - s1.count ∧
            (⟨s2.cells \ s1.cells, s2.count - s1.count⟩ : Sentence) ∉ kn ∧
            s = ⟨s2.cells \ s1.cells, s2.count - s1.count⟩) ∧
    (resolutionCandidates
        [⟨{(0,0),(0,1),(0,2)}, 2⟩, ⟨{(0,0),(0,1)}, 1⟩] = [⟨{(0,2)}, 1⟩] ∧
     (0,2) ∈ (AIState.mark_cells ⟨1, 3, ∅, ∅, ∅,
        [⟨{(0,0),(0,1),(0,2)}, 2⟩, ⟨{(0,0),(0,1)}, 1⟩] ++
          resolutionCandidates
            [⟨{(0,0),(0,1),(0,2)}, 2⟩, ⟨{(0,0),(0,1)}, 1⟩]⟩).mines) :=
  ⟨mem_resolutionCandidates, by decide⟩

/-- C6: after any truthful sequence of `add_knowledge` calls (the caller
contract: each call reveals an in-bounds non-mine cell with its true
adjacent-mine count), every sentence in knowledge satisfies
`0 ≤ count ≤ |cells|`. -/
theorem sentence_count_bounds (b : Board) (calls : List (Cell × ℤ))
    (ht : Truthful b calls) :
    ∀ s ∈ (runCalls (initAI b.height b.width) calls).knowledge,
      0 ≤ s.count ∧ s.count ≤ (s.cells.card : ℤ) := by
  intro s hs
  have h := sound_runCalls calls (initAI b.height b.width) (sound_initAI b) ht
  exact sentenceTrue_bounds (h.2.2.1 s hs)

theorem sentence_count_bounds_witness :
    Truthful ⟨1, 2, {(0,1)}⟩ [((0,0), 1)] ∧
    ∀ s ∈ (runCalls (initAI 1 2) [((0,0), 1)]).knowledge,
      0 ≤ s.count ∧ s.count ≤ (s.cells.card : ℤ) :=
  ⟨by decide, sentence_count_bounds ⟨1, 2, {(0,1)}⟩ [((0,0), 1)] (by decide)⟩

/-- C7 (amended): the step-4 append of the normalized candidate checks
structural equality against knowledge at the moment of the append (so it
preserves absence of duplicates), and every resolution-derived candidate is
structurally distinct from every sentence that was in knowledge before the
derived batch is appended; but the derived candidates are only checked
against that pre-batch knowledge, so one `add_knowledge` call can append two
structurally equal derived sentences (see `dedup_append_counterexample`). -/
theorem dedup_append_amended :
    (∀ (kn : List Sentence) (s : Sentence), kn.Nodup → (dedupAppend kn s).Nodup) ∧
    (∀ (kn : List Sentence) (s : Sentence), s ∈ resolutionCandidates kn → s ∉ kn) := by
  constructor
  · intro kn s h
    unfold dedupAppend
    split
    · exact h
    · next hnot =>
        simp [List.nodup_append, h, hnot]
  · intro kn s h
    rw [mem_resolutionCandidates] at h
    obtain ⟨s1, -, s2, -, -, -, -, -, hnotin, rfl⟩ := h
    exact hnotin

theorem dedup_append_amended_witness :
    (dedupAppend [] ⟨∅, 0⟩).Nodup ∧
    (⟨{(0,2)}, 1⟩ : Sentence)
      ∉ [(⟨{(0,0),(0,1)}, 1⟩ : Sentence), ⟨{(0,0),(0,1),(0,2)}, 2⟩] :=
  ⟨dedup_append_amended.1 [] ⟨∅, 0⟩ List.nodup_nil,
   dedup_append_amended.2 [⟨{(0,0),(0,1)}, 1⟩, ⟨{(0,0),(0,1),(0,2)}, 2⟩]
     ⟨{(0,2)}, 1⟩ (by decide)⟩

set_option maxRecDepth 1000000 in
set_option maxHeartbeats 8000000 in
/-- C7 counterexample: from the reachable state after
`add_knowledge((0,0), 2); add_knowledge((1,0), 1)` on a 2×4 agent, the call
`add_knowledge((0,2), 1)` reaches the resolution pass with a knowledge list
holding two structurally equal sentences {(0,1),(1,1)}=1 (earlier in-place
cell removals made two different sentences equal) next to
{(0,1),(0,3),(1,1),(1,2),(1,3)}=1; each of the two equal sentences forms a
subset pair with the 5-cell one, so the derived batch is the candidate
{(0,3),(1,2),(1,3)}=0 twice, and the whole batch is appended: the second
copy is appended while a structurally equal sentence is already in
knowledge. -/
theorem dedup_append_counterexample :
    (((runCalls (initAI 2 4) [((0,0),2),((1,0),1)]).addStage3
        (0,2) 1)).knowledge
      = [⟨{(1,1),(0,1)}, 1⟩, ⟨{(0,1),(1,1)}, 1⟩, ⟨∅, 0⟩,
         ⟨{(1,2),(1,1),(1,3),(0,3),(0,1)}, 1⟩] ∧
    resolutionCandidates
        [⟨{(1,1),(0,1)}, 1⟩, ⟨{(0,1),(1,1)}, 1⟩, ⟨∅, 0⟩,
         ⟨{(1,2),(1,1),(1,3),(0,3),(0,1)}, 1⟩]
      = [⟨{(1,2),(1,3),(0,3)}, 0⟩, ⟨{(1,2),(1,3),(0,3)}, 0⟩] :=
  ⟨by decide, by
    simp +decide [resolutionCandidates, List.flatMap_cons, List.filterMap_cons]⟩

/-- C8: `known_mines` returns exactly the sentence's cell set when
`count = |cells|` and the empty set otherwise, and `known_safes` returns
exactly the cell set when `count = 0` and the empty set otherwise.  (Both
are pure functions of the sentence in this embedding, matching the source,
which only reads `self.cells` and `self.count`.) -/
theorem known_mines_known_safes_spec :
    ∀ s : Sentence,
      (((s.cells.card : ℤ) = s.count → s.known_mines = s.cells) ∧
       ((s.cells.card : ℤ) ≠ s.count → s.known_mines = ∅)) ∧
      ((s.count = 0 → s.known_safes = s.cells) ∧
       (s.count ≠ 0 → s.known_safes = ∅)) := by
  intro s
  unfold Sentence.known_mines Sentence.known_safes
  refine ⟨⟨?_, ?_⟩, ?_, ?_⟩ <;> intro h <;> simp [h]

theorem known_mines_known_safes_spec_witness :
    (⟨{(0,0)}, 1⟩ : Sentence).known_mines = {(0,0)} ∧
    (⟨{(0,0)}, 1⟩ : Sentence).known_safes = ∅ :=
  ⟨(known_mines_known_safes_spec ⟨{(0,0)}, 1⟩).1.1 (by decide),
   (known_mines_known_safes_spec ⟨{(0,0)}, 1⟩).2.2 (by decide)⟩

/-- C9: `make_random_move` is deterministic (it is a pure function of the
state and uses no randomness despite its name): it returns `none` exactly
when every grid cell is in `moves_made` or `mines`, and otherwise returns
the first cell in row-major order (i from 0 to height-1, j from 0 to
width-1) that is in neither set; it reads but never writes the state. -/
theorem make_random_move_spec (st : AIState) :
    (st.make_random_move = none ↔
      ∀ a b : ℕ, a < st.height → b < st.width →
        (a, b) ∈ st.moves_made ∨ (a, b) ∈ st.mines) ∧
    (∀ i j : ℕ, st.make_random_move = some (i, j) →
      i < st.height ∧ j < st.width ∧
      (i, j) ∉ st.moves_made ∧ (i, j) ∉ st.mines ∧
      ∀ a b : ℕ, a < st.height → b < st.width →
        (a, b) ∉ st.moves_made → (a, b) ∉ st.mines →
        (i, j) = (a, b) ∨ i < a ∨ (i = a ∧ j < b)) := by
  constructor
  · unfold AIState.make_random_move
    rw [List.find?_eq_none]
    constructor
    · intro h a b ha hb
      have := h (a, b) ((mem_rowMajor st.width st.height a b).mpr ⟨ha, hb⟩)
      simp only [decide_eq_true_eq, not_and, not_not] at this
      by_cases hm : (a, b) ∈ st.moves_made
      · exact Or.inl hm
      · exact Or.inr (this hm)
    · intro h x hx
      obtain ⟨a, b⟩ := x
      rw [mem_rowMajor] at hx
      have hab := h a b hx.1 hx.2
      simp only [decide_eq_true_eq, not_and, not_not]
      intro hmov
      rcases hab with hab | hab
      · exact absurd hab hmov
      · exact hab
  · intro i j hfind
    have hmem := List.mem_of_find?_eq_some hfind
    have hp := List.find?_some hfind
    rw [mem_rowMajor] at hmem
    simp only [decide_eq_true_eq] at hp
    refine ⟨hmem.1, hmem.2, hp.1, hp.2, ?_⟩
    intro a b ha hb hmov hmin
    have hmemb : (a, b) ∈ rowMajor st.width st.height :=
      (mem_rowMajor st.width st.height a b).mpr ⟨ha, hb⟩
    have hpb : (fun c => decide (c ∉ st.moves_made ∧ c ∉ st.mines)) (a, b) = true := by
      simp [hmov, hmin]
    have hfirst := find?_first (rowMajor st.width st.height)
      (rowMajor_pairwise st.width st.height) (i, j) hfind (a, b) hmemb hpb
    rcases hfirst with h | h
    · exact Or.inl h
    · unfold rmLT at h
      rcases h with h | h
      exacts [Or.inr (Or.inl h), Or.inr (Or.inr h)]

theorem make_random_move_spec_witness :
    (0 : ℕ) < (initAI 2 2).height ∧ (0 : ℕ) < (initAI 2 2).width ∧
    ((0 : ℕ), (0 : ℕ)) ∉ (initAI 2 2).moves_made ∧
    ((0 : ℕ), (0 : ℕ)) ∉ (initAI 2 2).mines ∧
    ∀ a b : ℕ, a < (initAI 2 2).height → b < (initAI 2 2).width →
      (a, b) ∉ (initAI 2 2).moves_made → (a, b) ∉ (initAI 2 2).mines →
      ((0 : ℕ), (0 : ℕ)) = (a, b) ∨ 0 < a ∨ (0 = a ∧ 0 < b) :=
  (make_random_move_spec (initAI 2 2)).2 0 0 (by decide)

/-- C10: with a requested mine count strictly greater than `height * width`,
the mine-placement loop of `Minesweeper.__init__` never exits: whatever
finite sequence of positions the random draws produce (each in range, as
`randrange` guarantees), the mine set stays inside the grid, so its size
never reaches the requested count and the loop guard
`len(self.mines) != mines` stays true after every iteration. -/
theorem mine_placement_loop_guard (h w n : ℕ) (choices : List Cell)
    (hn : h * w < n) (hc : ∀ c ∈ choices, c.1 < h ∧ c.2 < w) :
    (choices.foldl placeStep ∅).card ≠ n := by
  have hsub := placeRun_subset h w choices ∅ (Finset.empty_subset _) hc
  have hcard := Finset.card_le_card hsub
  rw [Finset.card_product, Finset.card_range, Finset.card_range] at hcard
  omega

theorem mine_placement_loop_guard_witness :
    1 * 1 < 2 ∧ (([(0, 0)] : List Cell).foldl placeStep ∅).card ≠ 2 :=
  ⟨by decide, mine_placement_loop_guard 1 1 2 [(0, 0)] (by decide) (by decide)⟩

end MinesweeperRepo
